import Mathlib

/-!
Verification of the fuzzy-search and ranking core of `src/app.js` (kit search).

Strings are modelled as `List Char`; JavaScript numbers are modelled as exact
rationals `ℚ` (every quantity the engine computes is of the form
`1 - d / max(m, n)` or a finite sum of such, i.e. rational).
`String.prototype.normalize('NFKC')` is modelled as the identity: it is the
identity on the ASCII range over which the catalog and queries of this app
range, and no claim below depends on compatibility normalization.
`toLowerCase` is modelled by `Char.toLower` (ASCII case folding, on which the
two agree).
-/

namespace App

/-- Characters of a string literal, as the `List Char` the model works over. -/
def chars (s : String) : List Char := s.data

/-- The whitespace class of the JavaScript regex `\s` restricted to the ASCII
range: space, tab, line feed, vertical tab, form feed, carriage return. -/
def jsWhitespace (c : Char) : Bool :=
  c = ' ' || c = '\t' || c = '\n' || c = Char.ofNat 11 || c = Char.ofNat 12 || c = '\r'

/-- `replace(/\s+/g, ' ')` from `normalize` (src/app.js:95): every maximal run
of whitespace becomes a single space.  The flag records whether the previous
character was whitespace (i.e. whether we are inside a run). -/
def collapseWsAux : Bool → List Char → List Char
  | _, [] => []
  | prevWs, c :: cs =>
    if jsWhitespace c then
      if prevWs then collapseWsAux true cs else ' ' :: collapseWsAux true cs
    else c :: collapseWsAux false cs

/-- `String.prototype.trim()`: drop leading and trailing whitespace. -/
def trimWs (l : List Char) : List Char :=
  ((l.dropWhile jsWhitespace).reverse.dropWhile jsWhitespace).reverse

/-- `normalize` (src/app.js:94-96): lower-case, NFKC (modelled as the
identity, see the header comment), collapse whitespace runs to one space,
trim. -/
def normalize (s : List Char) : List Char :=
  trimWs (collapseWsAux false (s.map Char.toLower))

/-- `singularize` (src/app.js:97-104): order-sensitive suffix rewriting,
first matching rule wins.  `s.slice(0, -k)` is `s.take (s.length - k)`. -/
def singularize (s : List Char) : List Char :=
  if (chars ("ies")).isSuffixOf s ∧ 3 < s.length then s.take (s.length - 3) ++ [Char.ofNat 121]
  else if (chars ("sses")).isSuffixOf s then s.take (s.length - 2)
  else if (chars ("xes")).isSuffixOf s ∨ (chars ("ches")).isSuffixOf s ∨ (chars ("shes")).isSuffixOf s then
    s.take (s.length - 2)
  else if (chars ("es")).isSuffixOf s ∧ 3 < s.length then s.take (s.length - 2)
  else if (chars ("s")).isSuffixOf s ∧ 3 < s.length then s.take (s.length - 1)
  else s

/-- Splitting on single separator characters, as JavaScript
`String.prototype.split` with a one-character class does: each separator
occurrence ends the current (possibly empty) chunk. -/
def splitByAux (p : Char → Bool) (acc : List Char) : List Char → List (List Char)
  | [] => [acc.reverse]
  | c :: cs => if p c then acc.reverse :: splitByAux p [] cs else splitByAux p (c :: acc) cs

/-- `splitBy p l` is `l` split at every character satisfying `p`. -/
def splitBy (p : Char → Bool) (l : List Char) : List (List Char) :=
  splitByAux p [] l

/-- `tokenize` (src/app.js:105-107): lower-case, split on runs of commas and
spaces, normalize+singularize each piece, drop empties.  JavaScript splits on
runs `[, ]+` directly; splitting at every single separator instead produces
extra empty chunks, all of which the same `filter(Boolean)` removes, so the
results agree. -/
def tokenize (q : List Char) : List (List Char) :=
  (((splitByAux (fun c => c = ',' || c = ' ') [] (q.map Char.toLower)).map
      (fun s => singularize (normalize s))).filter (fun s => !s.isEmpty))

/-- `similarityThresholdFor` (src/app.js:155-161). -/
def similarityThresholdFor (len : Nat) : ℚ :=
  if len ≤ 2 then 1
  else if len = 3 then 85/100
  else if len ≤ 5 then 78/100
  else if len ≤ 8 then 72/100
  else 68/100

/-! ### Levenshtein distance

`levRec` is the textbook head recursion; `levenshtein` is the rolling-row
dynamic program exactly as `src/app.js:108-125` computes it.  They are proved
equal below, and the metric properties are established for `levRec` via edit
sequences and transported. -/

/-- Textbook recursive Levenshtein distance (reference definition). -/
def levRec : List Char → List Char → Nat
  | [], ys => ys.length
  | x :: xs, [] => (x :: xs).length
  | x :: xs, y :: ys =>
    min (min (levRec xs (y :: ys) + 1) (levRec (x :: xs) ys + 1))
      (levRec xs ys + (if x = y then 0 else 1))
termination_by a b => a.length + b.length
decreasing_by all_goals simp_wf <;> omega

/-- Inner loop of the dynamic program (src/app.js:118-121): given the
character `ca = a[i-1]`, the remaining characters of `b`, the corresponding
suffix of the previous row (starting at `prev[j-1]`), and `left = curr[j-1]`,
produce the entries `curr[j], curr[j+1], …`. -/
def levRowAux (ca : Char) : List Char → List Nat → Nat → List Nat
  | cb :: bs, pj1 :: pj :: ps, left =>
    let cost := if ca = cb then 0 else 1
    let cur := min (min (left + 1) (pj + 1)) (pj1 + cost)
    cur :: levRowAux ca bs (pj :: ps) cur
  | _, _, _ => []

/-- Outer loop of the dynamic program (src/app.js:115-123): fold the
characters of `a` over the row, with `i` the 1-based row index
(`curr[0] = i`). -/
def levRows (b : List Char) : List Char → List Nat → Nat → List Nat
  | [], prev, _ => prev
  | ca :: as, prev, i => levRows b as (i :: levRowAux ca b prev i) (i + 1)

/-- `levenshtein` (src/app.js:108-125): early returns for empty inputs, then
the rolling-row dynamic program; the result is `prev[n]`, the last entry of
the final row. -/
def levenshtein (a b : List Char) : Nat :=
  if a.length = 0 then b.length
  else if b.length = 0 then a.length
  else (levRows b a (List.range (b.length + 1)) 1).getLastD 0

example : levenshtein (chars ("stome")) (chars ("stone")) = 1 := by decide
example : levenshtein (chars ("ab")) (chars ("xab")) = 1 := by decide
example : levenshtein (chars ("kitten")) (chars ("sitting")) = 3 := by decide
example : levenshtein [] (chars ("abc")) = 3 := by decide

/-! ### Edit sequences: the witness structure behind the metric properties -/

/-- `Edits xs ys n`: `ys` is obtained from `xs` by an edit script of cost `n`
(keep is free; substitution, insertion and deletion cost 1 each). -/
inductive Edits : List Char → List Char → Nat → Prop where
  | nil : Edits [] [] 0
  | keep (c : Char) {xs ys : List Char} {n : Nat} :
      Edits xs ys n → Edits (c :: xs) (c :: ys) n
  | subst (a b : Char) {xs ys : List Char} {n : Nat} :
      Edits xs ys n → Edits (a :: xs) (b :: ys) (n + 1)
  | ins (b : Char) {xs ys : List Char} {n : Nat} :
      Edits xs ys n → Edits xs (b :: ys) (n + 1)
  | del (a : Char) {xs ys : List Char} {n : Nat} :
      Edits xs ys n → Edits (a :: xs) ys (n + 1)

theorem levRec_nil_right (xs : List Char) : levRec xs [] = xs.length := by
  cases xs <;> simp [levRec]

theorem levRec_le_edits {xs ys : List Char} {n : Nat} (h : Edits xs ys n) :
    levRec xs ys ≤ n := by
  induction h with
  | nil => simp [levRec]
  | keep c h ih =>
    rename_i xs ys n
    have h1 : levRec (c :: xs) (c :: ys) ≤ levRec xs ys + (if c = c then 0 else 1) := by
      simp only [levRec]; exact min_le_right _ _
    simp at h1
    omega
  | subst a b h ih =>
    rename_i xs ys n
    have h1 : levRec (a :: xs) (b :: ys) ≤ levRec xs ys + (if a = b then 0 else 1) := by
      simp only [levRec]; exact min_le_right _ _
    have h2 : (if a = b then 0 else 1) ≤ 1 := by split <;> omega
    omega
  | ins b h ih =>
    rename_i xs ys n
    cases xs with
    | nil => simp [levRec] at ih ⊢; omega
    | cons x xs' =>
      have h1 : levRec (x :: xs') (b :: ys) ≤ levRec (x :: xs') ys + 1 := by
        simp only [levRec]
        exact le_trans (min_le_left _ _) (min_le_right _ _)
      omega
  | del a h ih =>
    rename_i xs ys n
    cases ys with
    | nil =>
      simp [levRec_nil_right] at ih ⊢
      omega
    | cons y ys' =>
      have h1 : levRec (a :: xs) (y :: ys') ≤ levRec xs (y :: ys') + 1 := by
        simp only [levRec]
        exact le_trans (min_le_left _ _) (min_le_left _ _)
      omega

theorem edits_nil_left (ys : List Char) : Edits [] ys ys.length := by
  induction ys with
  | nil => exact Edits.nil
  | cons y ys ih => exact Edits.ins y ih

theorem edits_nil_right (xs : List Char) : Edits xs [] xs.length := by
  induction xs with
  | nil => exact Edits.nil
  | cons x xs ih => exact Edits.del x ih

theorem min3_cases (a b c : Nat) :
    min (min a b) c = a ∨ min (min a b) c = b ∨ min (min a b) c = c := by
  omega

theorem edits_exists_aux :
    ∀ (N : Nat) (xs ys : List Char), xs.length + ys.length ≤ N →
      Edits xs ys (levRec xs ys) := by
  intro N
  induction N with
  | zero =>
    intro xs ys h
    have hx : xs = [] := by cases xs <;> simp_all
    have hy : ys = [] := by cases ys <;> simp_all
    subst hx; subst hy
    simpa [levRec] using Edits.nil
  | succ N ih =>
    intro xs ys h
    cases xs with
    | nil => simpa [levRec] using edits_nil_left ys
    | cons x xs' =>
      cases ys with
      | nil => simpa [levRec_nil_right] using edits_nil_right (x :: xs')
      | cons y ys' =>
        simp only [levRec]
        rcases min3_cases (levRec xs' (y :: ys') + 1) (levRec (x :: xs') ys' + 1)
          (levRec xs' ys' + (if x = y then 0 else 1)) with h3 | h3 | h3 <;> rw [h3]
        · exact Edits.del x (ih xs' (y :: ys') (by simp at h ⊢; omega))
        · exact Edits.ins y (ih (x :: xs') ys' (by simp at h ⊢; omega))
        · by_cases hxy : x = y
          · subst hxy
            simpa using Edits.keep x (ih xs' ys' (by simp at h ⊢; omega))
          · simpa [hxy] using Edits.subst x y (ih xs' ys' (by simp at h ⊢; omega))

theorem edits_exists (xs ys : List Char) : Edits xs ys (levRec xs ys) :=
  edits_exists_aux (xs.length + ys.length) xs ys le_rfl

theorem edits_symm {xs ys : List Char} {n : Nat} (h : Edits xs ys n) :
    Edits ys xs n := by
  induction h with
  | nil => exact Edits.nil
  | keep c h ih => exact Edits.keep c ih
  | subst a b h ih => exact Edits.subst b a ih
  | ins b h ih => exact Edits.del b ih
  | del a h ih => exact Edits.ins a ih

theorem edits_comp_aux :
    ∀ (N : Nat) (xs ys zs : List Char) (m n : Nat),
      xs.length + ys.length + zs.length + m + n ≤ N →
      Edits xs ys m → Edits ys zs n → ∃ k, k ≤ m + n ∧ Edits xs zs k := by
  intro N
  induction N with
  | zero =>
    intro xs ys zs m n hN d1 d2
    cases d1 with
    | nil => exact ⟨n, by omega, d2⟩
    | keep c h1 => exfalso; simp only [List.length_cons] at hN; omega
    | subst a b h1 => exfalso; simp only [List.length_cons] at hN; omega
    | ins b h1 => exfalso; simp only [List.length_cons] at hN; omega
    | del a h1 => exfalso; simp only [List.length_cons] at hN; omega
  | succ N ih =>
    intro xs ys zs m n hN d1 d2
    cases d1 with
    | nil => exact ⟨n, by omega, d2⟩
    | del a h1 =>
      rename_i xs' m'
      obtain ⟨k, hk, e⟩ := ih xs' ys zs m' n
        (by simp only [List.length_cons] at hN; omega) h1 d2
      exact ⟨k + 1, by omega, Edits.del a e⟩
    | keep c h1 =>
      rename_i xs' ys'
      cases d2 with
      | keep c2 h2 =>
        rename_i zs'
        obtain ⟨k, hk, e⟩ := ih xs' ys' zs' m n
          (by simp only [List.length_cons] at hN; omega) h1 h2
        exact ⟨k, by omega, Edits.keep c e⟩
      | subst a2 b2 h2 =>
        rename_i zs' n'
        obtain ⟨k, hk, e⟩ := ih xs' ys' zs' m n'
          (by simp only [List.length_cons] at hN; omega) h1 h2
        exact ⟨k + 1, by omega, Edits.subst c b2 e⟩
      | ins b2 h2 =>
        rename_i zs' n'
        obtain ⟨k, hk, e⟩ := ih (c :: xs') (c :: ys') zs' m n'
          (by simp only [List.length_cons] at hN ⊢; omega) (Edits.keep c h1) h2
        exact ⟨k + 1, by omega, Edits.ins b2 e⟩
      | del a2 h2 =>
        rename_i n'
        obtain ⟨k, hk, e⟩ := ih xs' ys' zs m n'
          (by simp only [List.length_cons] at hN; omega) h1 h2
        exact ⟨k + 1, by omega, Edits.del c e⟩
    | subst a b h1 =>
      rename_i xs' ys' m'
      cases d2 with
      | keep c2 h2 =>
        rename_i zs'
        obtain ⟨k, hk, e⟩ := ih xs' ys' zs' m' n
          (by simp only [List.length_cons] at hN; omega) h1 h2
        exact ⟨k + 1, by omega, Edits.subst a b e⟩
      | subst a2 b2 h2 =>
        rename_i zs' n'
        obtain ⟨k, hk, e⟩ := ih xs' ys' zs' m' n'
          (by simp only [List.length_cons] at hN; omega) h1 h2
        exact ⟨k + 1, by omega, Edits.subst a b2 e⟩
      | ins b2 h2 =>
        rename_i zs' n'
        obtain ⟨k, hk, e⟩ := ih (a :: xs') (b :: ys') zs' (m' + 1) n'
          (by simp only [List.length_cons] at hN ⊢; omega) (Edits.subst a b h1) h2
        exact ⟨k + 1, by omega, Edits.ins b2 e⟩
      | del a2 h2 =>
        rename_i n'
        obtain ⟨k, hk, e⟩ := ih xs' ys' zs m' n'
          (by simp only [List.length_cons] at hN; omega) h1 h2
        exact ⟨k + 1, by omega, Edits.del a e⟩
    | ins b h1 =>
      rename_i ys' m'
      cases d2 with
      | keep c2 h2 =>
        rename_i zs'
        obtain ⟨k, hk, e⟩ := ih xs ys' zs' m' n
          (by simp only [List.length_cons] at hN; omega) h1 h2
        exact ⟨k + 1, by omega, Edits.ins b e⟩
      | subst a2 b2 h2 =>
        rename_i zs' n'
        obtain ⟨k, hk, e⟩ := ih xs ys' zs' m' n'
          (by simp only [List.length_cons] at hN; omega) h1 h2
        exact ⟨k + 1, by omega, Edits.ins b2 e⟩
      | ins b2 h2 =>
        rename_i zs' n'
        obtain ⟨k, hk, e⟩ := ih xs (b :: ys') zs' (m' + 1) n'
          (by simp only [List.length_cons] at hN ⊢; omega) (Edits.ins b h1) h2
        exact ⟨k + 1, by omega, Edits.ins b2 e⟩
      | del a2 h2 =>
        rename_i n'
        obtain ⟨k, hk, e⟩ := ih xs ys' zs m' n'
          (by simp only [List.length_cons] at hN; omega) h1 h2
        exact ⟨k, by omega, e⟩

theorem edits_comp {xs ys zs : List Char} {m n : Nat}
    (d1 : Edits xs ys m) (d2 : Edits ys zs n) :
    ∃ k, k ≤ m + n ∧ Edits xs zs k :=
  edits_comp_aux (xs.length + ys.length + zs.length + m + n) xs ys zs m n le_rfl d1 d2

theorem levRec_self (a : List Char) : levRec a a = 0 := by
  have h : Edits a a 0 := by
    induction a with
    | nil => exact Edits.nil
    | cons x xs ih => exact Edits.keep x ih
  exact Nat.le_antisymm (levRec_le_edits h) (Nat.zero_le _)

theorem levRec_symm (a b : List Char) : levRec a b = levRec b a :=
  Nat.le_antisymm (levRec_le_edits (edits_symm (edits_exists b a)))
    (levRec_le_edits (edits_symm (edits_exists a b)))

theorem levRec_triangle (a b c : List Char) :
    levRec a c ≤ levRec a b + levRec b c := by
  obtain ⟨k, hk, e⟩ := edits_comp (edits_exists a b) (edits_exists b c)
  exact le_trans (levRec_le_edits e) hk

/-! ### Equality of the rolling-row dynamic program with the reference
recursion -/

theorem edits_snoc_keep (c : Char) {xs ys : List Char} {n : Nat} (h : Edits xs ys n) :
    Edits (xs ++ [c]) (ys ++ [c]) n := by
  induction h with
  | nil => exact Edits.keep c Edits.nil
  | keep c2 h ih => exact Edits.keep c2 ih
  | subst a b h ih => exact Edits.subst a b ih
  | ins b h ih => exact Edits.ins b ih
  | del a h ih => exact Edits.del a ih

theorem edits_snoc_subst (a b : Char) {xs ys : List Char} {n : Nat} (h : Edits xs ys n) :
    Edits (xs ++ [a]) (ys ++ [b]) (n + 1) := by
  induction h with
  | nil => exact Edits.subst a b Edits.nil
  | keep c2 h ih => exact Edits.keep c2 ih
  | subst a2 b2 h ih => exact Edits.subst a2 b2 ih
  | ins b2 h ih => exact Edits.ins b2 ih
  | del a2 h ih => exact Edits.del a2 ih

theorem edits_snoc_ins (b : Char) {xs ys : List Char} {n : Nat} (h : Edits xs ys n) :
    Edits xs (ys ++ [b]) (n + 1) := by
  induction h with
  | nil => exact Edits.ins b Edits.nil
  | keep c2 h ih => exact Edits.keep c2 ih
  | subst a2 b2 h ih => exact Edits.subst a2 b2 ih
  | ins b2 h ih => exact Edits.ins b2 ih
  | del a2 h ih => exact Edits.del a2 ih

theorem edits_snoc_del (a : Char) {xs ys : List Char} {n : Nat} (h : Edits xs ys n) :
    Edits (xs ++ [a]) ys (n + 1) := by
  induction h with
  | nil => exact Edits.del a Edits.nil
  | keep c2 h ih => exact Edits.keep c2 ih
  | subst a2 b2 h ih => exact Edits.subst a2 b2 ih
  | ins b2 h ih => exact Edits.ins b2 ih
  | del a2 h ih => exact Edits.del a2 ih

theorem edits_reverse {xs ys : List Char} {n : Nat} (h : Edits xs ys n) :
    Edits xs.reverse ys.reverse n := by
  induction h with
  | nil => exact Edits.nil
  | keep c h ih => simpa using edits_snoc_keep c ih
  | subst a b h ih => simpa using edits_snoc_subst a b ih
  | ins b h ih => simpa using edits_snoc_ins b ih
  | del a h ih => simpa using edits_snoc_del a ih

theorem levRec_reverse (a b : List Char) :
    levRec a.reverse b.reverse = levRec a b := by
  refine Nat.le_antisymm (levRec_le_edits (edits_reverse (edits_exists a b))) ?_
  have h := levRec_le_edits (edits_reverse (edits_exists a.reverse b.reverse))
  simpa using h

theorem levRec_snoc (xs ys : List Char) (ca cb : Char) :
    levRec (xs ++ [ca]) (ys ++ [cb]) =
      min (min (levRec (xs ++ [ca]) ys + 1) (levRec xs (ys ++ [cb]) + 1))
        (levRec xs ys + (if ca = cb then 0 else 1)) := by
  have h1 : levRec (xs ++ [ca]) (ys ++ [cb]) =
      levRec (ca :: xs.reverse) (cb :: ys.reverse) := by
    rw [← levRec_reverse (xs ++ [ca]) (ys ++ [cb])]
    simp
  have h2 : levRec xs (ys ++ [cb]) = levRec xs.reverse (cb :: ys.reverse) := by
    rw [← levRec_reverse xs (ys ++ [cb])]
    simp
  have h3 : levRec (xs ++ [ca]) ys = levRec (ca :: xs.reverse) ys.reverse := by
    rw [← levRec_reverse (xs ++ [ca]) ys]
    simp
  have h4 : levRec xs ys = levRec xs.reverse ys.reverse := (levRec_reverse xs ys).symm
  rw [h1, h2, h3, h4]
  simp only [levRec]
  omega

/-- The intended contents of a dynamic-programming row: entry `j` is the
distance between `xs` and the prefix of `b` of length `j`, extended past the
prefix `pre` already consumed. -/
def specRow (xs pre : List Char) : List Char → List Nat
  | [] => [levRec xs pre]
  | cb :: bs => levRec xs pre :: specRow xs (pre ++ [cb]) bs

theorem specRow_head (xs pre b : List Char) :
    specRow xs pre b = levRec xs pre :: (specRow xs pre b).tail := by
  cases b <;> simp [specRow]

theorem levRowAux_spec (ca : Char) :
    ∀ (b xs pre : List Char),
      levRowAux ca b (specRow xs pre b) (levRec (xs ++ [ca]) pre) =
        (specRow (xs ++ [ca]) pre b).tail := by
  intro b
  induction b with
  | nil => intro xs pre; simp [specRow, levRowAux]
  | cons cb bs ih =>
    intro xs pre
    obtain ⟨rest, hrest⟩ : ∃ rest,
        specRow xs (pre ++ [cb]) bs = levRec xs (pre ++ [cb]) :: rest :=
      ⟨(specRow xs (pre ++ [cb]) bs).tail, specRow_head xs (pre ++ [cb]) bs⟩
    have hih := ih xs (pre ++ [cb])
    rw [hrest] at hih
    simp only [specRow, hrest, levRowAux, List.tail_cons]
    rw [← levRec_snoc xs pre ca cb, hih]
    exact (specRow_head (xs ++ [ca]) (pre ++ [cb]) bs).symm

theorem levRows_spec :
    ∀ (as xs b : List Char),
      levRows b as (specRow xs [] b) (xs.length + 1) = specRow (xs ++ as) [] b := by
  intro as
  induction as with
  | nil => intro xs b; simp [levRows]
  | cons ca as' ih =>
    intro xs b
    rw [levRows]
    have hlen : xs.length + 1 = levRec (xs ++ [ca]) [] := by
      rw [levRec_nil_right]; simp
    have hrow : (xs.length + 1) :: levRowAux ca b (specRow xs [] b) (xs.length + 1) =
        specRow (xs ++ [ca]) [] b := by
      rw [hlen, levRowAux_spec ca b xs []]
      exact (specRow_head (xs ++ [ca]) [] b).symm
    rw [hrow]
    have h2 := ih (xs ++ [ca]) b
    simp only [List.length_append, List.length_cons, List.length_nil,
      List.append_assoc, List.cons_append, List.nil_append] at h2 ⊢
    convert h2 using 2

theorem specRow_of_nil : ∀ (b pre : List Char),
    specRow [] pre b = List.range' pre.length (b.length + 1) := by
  intro b
  induction b with
  | nil => intro pre; simp [specRow, levRec, List.range']
  | cons cb bs ih =>
    intro pre
    rw [specRow, List.range'_succ, ih (pre ++ [cb])]
    simp [levRec]

theorem specRow_getLastD (xs : List Char) :
    ∀ (b pre : List Char) (d : Nat),
      (specRow xs pre b).getLastD d = levRec xs (pre ++ b) := by
  intro b
  induction b with
  | nil => intro pre d; simp [specRow]
  | cons cb bs ih =>
    intro pre d
    rw [specRow, List.getLastD_cons, ih (pre ++ [cb])]
    simp

/-- The rolling-row dynamic program of the source computes the textbook
Levenshtein distance. -/
theorem levenshtein_eq_levRec (a b : List Char) : levenshtein a b = levRec a b := by
  unfold levenshtein
  split
  · next h =>
    have : a = [] := List.length_eq_zero.mp h
    subst this
    simp [levRec]
  · split
    · next h h2 =>
      have : b = [] := List.length_eq_zero.mp h2
      subst this
      rw [levRec_nil_right]
    · next h h2 =>
      have h0 : List.range (b.length + 1) = specRow [] [] b := by
        rw [specRow_of_nil b []]
        simp [List.range_eq_range']
      rw [h0]
      have h1 := levRows_spec a [] b
      simp only [List.length_nil, List.nil_append] at h1
      rw [h1, specRow_getLastD a b [] 0]
      simp

theorem levenshtein_le_max (a b : List Char) :
    levenshtein a b ≤ max a.length b.length := by
  rw [levenshtein_eq_levRec]
  refine levRec_le_edits ?_
  induction a generalizing b with
  | nil => simpa using edits_nil_left b
  | cons x xs ih =>
    cases b with
    | nil => simpa using edits_nil_right (x :: xs)
    | cons y ys =>
      have h := Edits.subst x y (ih ys)
      simpa [Nat.succ_max_succ] using h

/-! ### Window matcher (src/app.js:126-154) -/

/-- `String.prototype.startsWith`: `p` is an initial segment of `s`. -/
def startsWithL (s p : List Char) : Bool :=
  s.take p.length == p

/-- Scan of `String.prototype.indexOf` from position `i` onwards. -/
def firstIndexOfAux (q : List Char) : List Char → Nat → Option Nat
  | [], i => if q.isEmpty then some i else none
  | t@(_ :: t'), i => if startsWithL t q then some i else firstIndexOfAux q t' (i + 1)

/-- `t.indexOf(q)` (src/app.js:130), as an `Option` instead of `-1`. -/
def firstIndexOf (t q : List Char) : Option Nat :=
  firstIndexOfAux q t 0

/-- The record returned by `bestWindowSimilarity`; `start`/`endIdx` are `-1`
when the score did not come from a specific window, mirroring the source. -/
structure MatchSpan where
  score : ℚ
  start : Int
  endIdx : Int
  exact : Bool
deriving DecidableEq

/-- The prefix/containment score of `bestWindowSimilarity`
(src/app.js:133-137). -/
def prefScoreOf (t q : List Char) : ℚ :=
  if startsWithL t q || startsWithL q t then
    ((min t.length q.length : Nat) : ℚ) / ((max t.length q.length : Nat) : ℚ)
  else 0

/-- One iteration of the sliding-window loop of `bestWindowSimilarity`
(src/app.js:143-149): the window is `t.slice(s, s + q.length)` and the
accumulator is replaced on strict improvement only. -/
def windowStep (t q : List Char) (best : MatchSpan) (s : Nat) : MatchSpan :=
  let sub := (t.drop s).take q.length
  let dist := levenshtein sub q
  let sim : ℚ := 1 - (dist : ℚ) / ((max sub.length q.length : Nat) : ℚ)
  if best.score < sim then
    { score := sim, start := (s : Int), endIdx := (s : Int) + (q.length : Int), exact := false }
  else best

/-- The sliding-window loop of `bestWindowSimilarity` (src/app.js:143-149):
`s` ranges over `0 … max(0, len t − len q)`. -/
def windowFold (t q : List Char) (init : MatchSpan) : MatchSpan :=
  (List.range (max 0 (t.length - q.length) + 1)).foldl (windowStep t q) init

/-- `bestWindowSimilarity` (src/app.js:126-154).  The source's
`if (best.score === 1) break` inside the window loop is a pure optimization:
once the best score is 1 no later window or whole-string comparison can
strictly exceed it (every similarity is at most 1), so dropping the break
leaves the result unchanged. -/
def bestWindowSimilarity (text token : List Char) : MatchSpan :=
  let t := singularize (normalize text)
  let q := singularize (normalize token)
  if q.isEmpty then { score := 0, start := -1, endIdx := -1, exact := false }
  else
    match firstIndexOf t q with
    | some idx => { score := 1, start := idx, endIdx := idx + q.length, exact := true }
    | none =>
      let best0 : MatchSpan := { score := prefScoreOf t q, start := -1, endIdx := -1, exact := false }
      if t.length = 0 then best0
      else
        let best := windowFold t q best0
        let wholeDist := levenshtein t q
        let wholeSim : ℚ := 1 - (wholeDist : ℚ) / ((max t.length q.length : Nat) : ℚ)
        if best.score < wholeSim then { score := wholeSim, start := -1, endIdx := -1, exact := false }
        else best

/-- The record returned by `matchTokenToBlock` (src/app.js:162-173): a
`MatchSpan` plus the compared target string and the index of the matched
word (`-1` for the block's full text). -/
structure BlockBest where
  score : ℚ
  start : Int
  endIdx : Int
  exact : Bool
  target : List Char
  inWordIndex : Int
deriving DecidableEq

/-- `matchTokenToBlock` (src/app.js:162-173): best window similarity against
the block's full normalized text and against each of its space-separated
words, strict improvement only. -/
def matchTokenToBlock (token block : List Char) : BlockBest :=
  let nb := singularize (normalize block)
  let words := splitBy (fun c => c = ' ') nb
  let best0 : BlockBest :=
    { score := 0, start := -1, endIdx := -1, exact := false, target := nb, inWordIndex := -1 }
  let bw := bestWindowSimilarity block token
  let best1 : BlockBest :=
    if best0.score < bw.score then
      { score := bw.score, start := bw.start, endIdx := bw.endIdx, exact := bw.exact,
        target := nb, inWordIndex := -1 }
    else best0
  words.enum.foldl
    (fun best iw =>
      let res := bestWindowSimilarity iw.2 token
      if best.score < res.score then
        { score := res.score, start := res.start, endIdx := res.endIdx, exact := res.exact,
          target := iw.2, inWordIndex := (iw.1 : Int) }
      else best)
    best1

/-! ### Ranking engine (src/app.js:193-230) -/

/-- A catalog entry as the engine consumes it. -/
structure Kit where
  name : List Char
  blocks : List (List Char)
deriving DecidableEq

/-- The per-block accumulator of the ranking loop (src/app.js:199-207):
`{ score, token, match, originalBlock }`.  The `match` field is `none` only
in the initial value, which is discarded unless some token is admitted. -/
structure BestForBlock where
  score : ℚ
  token : List Char
  matchRes : Option BlockBest
  originalBlock : List Char
deriving DecidableEq

/-- One result card (src/app.js:216). -/
structure KitResult where
  kit : Kit
  matchedBlocks : List BestForBlock
  kitScore : ℚ
  hitsCount : Nat
deriving DecidableEq

/-- Inner token loop (src/app.js:200-207): the best admitted token match for
one block.  The initial accumulator has `originalBlock := block` (unset in
the source) — it is observable only through entries with score 0, which are
never pushed. -/
def bestForBlock (tokens : List (List Char)) (block : List Char) : BestForBlock :=
  tokens.foldl
    (fun best tokRaw =>
      let tok := singularize (normalize tokRaw)
      let m := matchTokenToBlock tok block
      let th := similarityThresholdFor tok.length
      if th ≤ m.score ∧ best.score < m.score then
        { score := m.score, token := tok, matchRes := some m, originalBlock := block }
      else best)
    { score := 0, token := [], matchRes := none, originalBlock := block }

/-- The blocks of a kit that are admitted with a positive score
(src/app.js:208-211), in block order. -/
def admittedBlocks (tokens : List (List Char)) (kit : Kit) : List BestForBlock :=
  (kit.blocks.map (bestForBlock tokens)).filter (fun b => decide (0 < b.score))

/-- Comparator `(a, b) => b.score - a.score` (src/app.js:215) as the
"comparator ≤ 0" ordering used by the stable sort. -/
def blockScoreLe (a b : BestForBlock) : Bool :=
  decide (b.score ≤ a.score)

/-- One iteration of the kit loop (src/app.js:194-218): `none` when no block
is admitted, otherwise the KitResult with `matchedBlocks` sorted by
descending score and `kitScore` the sum of the admitted scores (the source
accumulates `kitScore += score` exactly when it pushes the block). -/
def kitResult? (tokens : List (List Char)) (kit : Kit) : Option KitResult :=
  let mbs := admittedBlocks tokens kit
  if mbs.isEmpty then none
  else some
    { kit := kit
      matchedBlocks := mbs.mergeSort blockScoreLe
      kitScore := mbs.foldl (fun acc b => acc + b.score) 0
      hitsCount := mbs.length }

/-- Three-way lexicographic comparison on code points, the primitive under
the collation model. -/
def lexCmp : List Char → List Char → Int
  | [], [] => 0
  | [], _ :: _ => -1
  | _ :: _, [] => 1
  | a :: as, b :: bs =>
    if a.toNat < b.toNat then -1
    else if b.toNat < a.toNat then 1
    else lexCmp as bs

/-- Modelled from the platform: JavaScript's default
`String.prototype.localeCompare` under root-locale (ICU) collation,
restricted to the ASCII strings of this catalog: the primary comparison
level is case-insensitive (base letters), and only strings equal at that
level are ordered by the tertiary (case) level, modelled here as the raw
code-point comparison. -/
def localeCompare (a b : List Char) : Int :=
  let p := lexCmp (a.map Char.toLower) (b.map Char.toLower)
  if p ≠ 0 then p else lexCmp a b

/-- Comparator of the final sort (src/app.js:226-230),
`b.kitScore - a.kitScore || b.hitsCount - a.hitsCount ||
a.kit.name.localeCompare(b.kit.name)`, rendered as "comparator ≤ 0":
`a` may stay before `b` iff the first non-zero component is negative, or all
are zero. -/
def rankLe (a b : KitResult) : Bool :=
  decide (b.kitScore < a.kitScore ∨
    (b.kitScore = a.kitScore ∧
      (b.hitsCount < a.hitsCount ∨
        (b.hitsCount = a.hitsCount ∧ localeCompare a.kit.name b.kit.name ≤ 0))))

/-- The pure core of `render` (src/app.js:193-230): per-kit results in
catalog order (the loop pushes them in order, i.e. `filterMap`), then the
final stable sort. -/
def renderResults (kits : List Kit) (tokens : List (List Char)) : List KitResult :=
  (kits.filterMap (kitResult? tokens)).mergeSort rankLe

example : bestWindowSimilarity (chars ("Stone")) (chars ("stome")) =
    { score := 4/5, start := 0, endIdx := 5, exact := false } := by
  with_unfolding_all decide
example : bestWindowSimilarity (chars ("Grass Block")) (chars ("gr")) =
    { score := 1, start := 0, endIdx := 2, exact := true } := by
  with_unfolding_all decide
example : singularize (chars ("berries")) = chars ("berry") := by decide
example : tokenize (chars ("  ,  ")) = [] := by decide

/-! ### Specification of the substring scan -/

theorem firstIndexOfAux_shift (q : List Char) :
    ∀ (t : List Char) (i : Nat),
      firstIndexOfAux q t i = (firstIndexOfAux q t 0).map (fun j => j + i) := by
  intro t
  induction t with
  | nil =>
    intro i
    by_cases h : q.isEmpty <;> simp [firstIndexOfAux, h]
  | cons c t' ih =>
    intro i
    by_cases h : startsWithL (c :: t') q = true
    · simp [firstIndexOfAux, h]
    · simp only [firstIndexOfAux, h, if_false, Bool.false_eq_true]
      rw [ih (i + 1), ih 1]
      cases firstIndexOfAux q t' 0 <;> simp <;> omega

theorem firstIndexOf_some (t q : List Char) (j : Nat)
    (h : firstIndexOf t q = some j) :
    startsWithL (t.drop j) q = true ∧
      ∀ k, k < j → startsWithL (t.drop k) q = false := by
  induction t generalizing j with
  | nil =>
    unfold firstIndexOf firstIndexOfAux at h
    by_cases hq : q.isEmpty
    · simp [hq] at h
      subst h
      constructor
      · have : q = [] := by simpa [List.isEmpty_iff] using hq
        simp [this, startsWithL]
      · intro k hk; omega
    · simp [hq] at h
  | cons c t' ih =>
    unfold firstIndexOf firstIndexOfAux at h
    by_cases hs : startsWithL (c :: t') q = true
    · simp [hs] at h
      subst h
      exact ⟨by simpa using hs, fun k hk => by omega⟩
    · simp only [hs, if_false, Bool.false_eq_true] at h
      rw [firstIndexOfAux_shift q t' 1] at h
      cases hfi : firstIndexOfAux q t' 0 with
      | none => rw [hfi] at h; simp at h
      | some j' =>
        rw [hfi] at h
        simp at h
        obtain ⟨h1, h2⟩ := ih j' hfi
        constructor
        · have : j = j' + 1 := by omega
          subst this
          simpa using h1
        · intro k hk
          cases k with
          | zero => simpa using (by simpa using hs : ¬ startsWithL (c :: t') q = true)
          | succ k' =>
            have : k' < j' := by omega
            simpa using h2 k' this

theorem firstIndexOf_none (t q : List Char) (hq : q ≠ [])
    (h : firstIndexOf t q = none) :
    ∀ k, startsWithL (t.drop k) q = false := by
  induction t with
  | nil =>
    intro k
    simp only [List.drop_nil]
    have : ¬ ([] : List Char).take q.length = q := by
      intro hc
      exact hq (by simpa using hc.symm)
    simpa [startsWithL] using this
  | cons c t' ih =>
    unfold firstIndexOf firstIndexOfAux at h
    by_cases hs : startsWithL (c :: t') q = true
    · simp [hs] at h
    · simp only [hs, if_false, Bool.false_eq_true] at h
      rw [firstIndexOfAux_shift q t' 1] at h
      have hfi : firstIndexOf t' q = none := by
        cases hx : firstIndexOfAux q t' 0 <;> simp [firstIndexOf, hx] <;> simp [hx] at h
      intro k
      cases k with
      | zero => simpa using hs
      | succ k' => simpa using ih hfi k'

theorem startsWithL_length (t q : List Char) (j : Nat) (hq : q ≠ [])
    (h : startsWithL (t.drop j) q = true) : j + q.length ≤ t.length := by
  have h1 : (t.drop j).take q.length = q := by simpa [startsWithL] using h
  have h2 : ((t.drop j).take q.length).length = q.length := by rw [h1]
  simp only [List.length_take, List.length_drop] at h2
  have hq' : 0 < q.length := List.length_pos.mpr hq
  omega

/-! ### Claim theorems -/

/-- Claim C5: the `levenshtein` function of the source is a metric-like
distance on strings: it vanishes on the diagonal, is symmetric, and
satisfies the triangle inequality. -/
theorem c5_levenshtein_metric (a b c : List Char) :
    levenshtein a a = 0 ∧ levenshtein a b = levenshtein b a ∧
      levenshtein a c ≤ levenshtein a b + levenshtein b c := by
  refine ⟨?_, ?_, ?_⟩
  · rw [levenshtein_eq_levRec, levRec_self]
  · rw [levenshtein_eq_levRec, levenshtein_eq_levRec, levRec_symm]
  · rw [levenshtein_eq_levRec, levenshtein_eq_levRec, levenshtein_eq_levRec]
    exact levRec_triangle a b c

/-- Claim C7: `similarityThresholdFor` realises the stepped table — lengths
1 and 2 map to 1.0, length 3 to 0.85, lengths 4-5 to 0.78, lengths 6-8 to
0.72, lengths above 8 to 0.68 — and is monotonically non-increasing. -/
theorem c7_threshold_table :
    similarityThresholdFor 1 = 1 ∧ similarityThresholdFor 2 = 1 ∧
      similarityThresholdFor 3 = 85/100 ∧
      similarityThresholdFor 4 = 78/100 ∧ similarityThresholdFor 5 = 78/100 ∧
      (∀ len, 6 ≤ len → len ≤ 8 → similarityThresholdFor len = 72/100) ∧
      (∀ len, 8 < len → similarityThresholdFor len = 68/100) ∧
      (∀ m n, m ≤ n → similarityThresholdFor n ≤ similarityThresholdFor m) := by
  refine ⟨by norm_num [similarityThresholdFor], by norm_num [similarityThresholdFor],
    by norm_num [similarityThresholdFor], by norm_num [similarityThresholdFor],
    by norm_num [similarityThresholdFor], ?_, ?_, ?_⟩
  · intro len h1 h2
    unfold similarityThresholdFor
    split_ifs <;> first | rfl | omega
  · intro len h1
    unfold similarityThresholdFor
    split_ifs <;> first | rfl | omega
  · intro m n h
    unfold similarityThresholdFor
    split_ifs <;> (try norm_num) <;> omega

/-- Claim C7 witness: the theorem applied at concrete lengths 7 (band 6-8),
9 (band 9+), and the monotonicity instance 3 ≤ 9. -/
theorem c7_threshold_table_witness :
    similarityThresholdFor 7 = 72/100 ∧ similarityThresholdFor 9 = 68/100 ∧
      similarityThresholdFor 9 ≤ similarityThresholdFor 3 :=
  ⟨c7_threshold_table.2.2.2.2.2.1 7 (by decide) (by decide),
    c7_threshold_table.2.2.2.2.2.2.1 9 (by decide),
    c7_threshold_table.2.2.2.2.2.2.2 3 9 (by decide)⟩

/-- Claim C8: the ordered, first-match-wins suffix rules of `singularize`
give exactly the documented examples. -/
theorem c8_singularize_examples :
    singularize (chars ("berries")) = chars ("berry") ∧
      singularize (chars ("boxes")) = chars ("box") ∧
      singularize (chars ("planks")) = chars ("plank") ∧
      singularize (chars ("stone")) = chars ("stone") := by decide

/-- Claim C9: the full ranking computation is deterministic — two runs on
identical inputs produce identical result lists.  In this embedding
`renderResults` is a pure function of its arguments (the source computes it
from local state only, with no I/O and no shared mutable state), so the two
runs are definitionally the same value. -/
theorem c9_deterministic (kits : List Kit) (tokens : List (List Char)) :
    renderResults kits tokens = renderResults kits tokens := rfl

/-- Claim C10: `singularize` is not idempotent — `"bosses"` maps to
`"boss"` and then to `"bos"` — and the pipeline does apply it repeatedly:
for the query word `"bosseses"`, `tokenize` already produces the
singularized token `"bosses"`; the ranking loop singularizes it again to
`"boss"` (length 4, which selects the threshold), and `bestWindowSimilarity`
singularizes a third time, so the string actually compared is `"bos"`
(length 3), strictly shorter than the token whose length selected the
threshold. -/
theorem c10_singularize_not_idempotent :
    singularize (singularize (chars ("bosses"))) ≠ singularize (chars ("bosses")) ∧
      singularize (chars ("bosses")) = chars ("boss") ∧
      singularize (chars ("boss")) = chars ("bos") ∧
      tokenize (chars ("bosseses")) = [chars ("bosses")] ∧
      (singularize (normalize (singularize (normalize (chars ("bosses")))))).length <
        (singularize (normalize (chars ("bosses")))).length := by decide

/-- Claim C4: if the normalized+singularized token `q` is a non-empty
substring of the normalized+singularized candidate `t`, then
`bestWindowSimilarity` returns score 1, `exact = true`, and `start`/`endIdx`
equal to the first index range at which `q` occurs in `t`. -/
theorem c4_exact_substring (candidate token : List Char)
    (hq : singularize (normalize token) ≠ [])
    (hsub : ∃ i, startsWithL ((singularize (normalize candidate)).drop i)
        (singularize (normalize token)) = true) :
    ∃ j : Nat, bestWindowSimilarity candidate token =
        { score := 1, start := (j : Int),
          endIdx := (j : Int) + ((singularize (normalize token)).length : Int),
          exact := true } ∧
      startsWithL ((singularize (normalize candidate)).drop j)
          (singularize (normalize token)) = true ∧
      ∀ k, k < j → startsWithL ((singularize (normalize candidate)).drop k)
          (singularize (normalize token)) = false := by
  have hqe : (singularize (normalize token)).isEmpty = false := by
    simpa [List.isEmpty_iff] using hq
  cases hfi : firstIndexOf (singularize (normalize candidate)) (singularize (normalize token)) with
  | none =>
    exfalso
    obtain ⟨i, hi⟩ := hsub
    have := firstIndexOf_none _ _ hq hfi i
    rw [this] at hi
    exact Bool.false_ne_true hi
  | some j =>
    obtain ⟨h1, h2⟩ := firstIndexOf_some _ _ j hfi
    refine ⟨j, ?_, h1, h2⟩
    unfold bestWindowSimilarity
    simp [hqe, hfi]

/-- Claim C4 witness: the theorem applied to candidate `"Grass Block"` and
token `"gr"`, whose normalized+singularized forms are `"grass block"` and
`"gr"`, with the occurrence at index 0 as the concrete substring witness. -/
theorem c4_exact_substring_witness :
    singularize (normalize (chars ("gr"))) ≠ [] ∧
      (∃ j : Nat, bestWindowSimilarity (chars ("Grass Block")) (chars ("gr")) =
          { score := 1, start := (j : Int),
            endIdx := (j : Int) + ((singularize (normalize (chars ("gr")))).length : Int),
            exact := true } ∧
        startsWithL ((singularize (normalize (chars ("Grass Block")))).drop j)
            (singularize (normalize (chars ("gr")))) = true ∧
        ∀ k, k < j → startsWithL ((singularize (normalize (chars ("Grass Block")))).drop k)
            (singularize (normalize (chars ("gr")))) = false) :=
  ⟨by decide, c4_exact_substring (chars ("Grass Block")) (chars ("gr")) (by decide)
    ⟨0, by decide⟩⟩

/-- Invariant preservation through a left fold. -/
theorem foldl_invariant {α β : Type} (P : β → Prop) (f : β → α → β) :
    ∀ (l : List α) (init : β), P init → (∀ b a, a ∈ l → P b → P (f b a)) →
      P (l.foldl f init) := by
  intro l
  induction l with
  | nil => intro init h0 _; exact h0
  | cons x xs ih =>
    intro init h0 hstep
    exact ih (f init x) (hstep init x (by simp) h0)
      (fun b a ha hb => hstep b a (by simp [ha]) hb)

/-- Bounds for a normalized similarity `1 - d/m`. -/
theorem sim_bounds (d m : Nat) (hm : 0 < m) (hd : d ≤ m) :
    0 ≤ 1 - (d : ℚ) / (m : ℚ) ∧ 1 - (d : ℚ) / (m : ℚ) ≤ 1 := by
  have hm' : (0 : ℚ) < (m : ℚ) := by exact_mod_cast hm
  constructor
  · have h1 : (d : ℚ) / (m : ℚ) ≤ 1 := by
      rw [div_le_one hm']
      exact_mod_cast hd
    linarith
  · have h2 : (0 : ℚ) ≤ (d : ℚ) / (m : ℚ) := div_nonneg (by positivity) (by positivity)
    linarith

theorem prefScoreOf_bounds (t q : List Char) (hq : q ≠ []) :
    0 ≤ prefScoreOf t q ∧ prefScoreOf t q ≤ 1 := by
  unfold prefScoreOf
  split
  · have hmax : (0:ℚ) < ((max t.length q.length : Nat) : ℚ) := by
      exact_mod_cast lt_of_lt_of_le (List.length_pos.mpr hq) (le_max_right _ _)
    constructor
    · positivity
    · rw [div_le_one hmax]
      exact_mod_cast min_le_max
  · norm_num

theorem windowStep_score_bounds (t q : List Char) (hq : q ≠ []) (b : MatchSpan) (s : Nat)
    (hb : 0 ≤ b.score ∧ b.score ≤ 1) :
    0 ≤ (windowStep t q b s).score ∧ (windowStep t q b s).score ≤ 1 := by
  unfold windowStep
  dsimp only
  split
  · exact sim_bounds _ _ (lt_of_lt_of_le (List.length_pos.mpr hq) (le_max_right _ _))
      (levenshtein_le_max _ _)
  · exact hb

theorem windowFold_score_bounds (t q : List Char) (hq : q ≠ []) (init : MatchSpan)
    (hinit : 0 ≤ init.score ∧ init.score ≤ 1) :
    0 ≤ (windowFold t q init).score ∧ (windowFold t q init).score ≤ 1 :=
  foldl_invariant (fun b : MatchSpan => 0 ≤ b.score ∧ b.score ≤ 1) _ _ _ hinit
    (fun b s _ hb => windowStep_score_bounds t q hq b s hb)

/-- Claim C6: for every candidate text and token, `bestWindowSimilarity`
returns a score in `[0, 1]`, and when the normalized+singularized token is
empty the score is exactly 0. -/
theorem c6_score_bounds (text token : List Char) :
    0 ≤ (bestWindowSimilarity text token).score ∧
      (bestWindowSimilarity text token).score ≤ 1 ∧
      (singularize (normalize token) = [] → (bestWindowSimilarity text token).score = 0) := by
  by_cases hq : (singularize (normalize token)).isEmpty
  · unfold bestWindowSimilarity
    simp [hq, List.isEmpty_iff.mp hq]
  · have hq' : singularize (normalize token) ≠ [] := by
      simpa [List.isEmpty_iff] using hq
    have hmain : 0 ≤ (bestWindowSimilarity text token).score ∧
        (bestWindowSimilarity text token).score ≤ 1 := by
      unfold bestWindowSimilarity
      simp only [hq, Bool.false_eq_true, if_false]
      cases hfi : firstIndexOf (singularize (normalize text)) (singularize (normalize token)) with
      | some idx => simp [hfi]
      | none =>
        simp only [hfi]
        have hbase := prefScoreOf_bounds (singularize (normalize text))
          (singularize (normalize token)) hq'
        split
        · exact hbase
        · split
          · exact sim_bounds _ _
              (lt_of_lt_of_le (List.length_pos.mpr hq') (le_max_right _ _))
              (levenshtein_le_max _ _)
          · exact windowFold_score_bounds _ _ hq' _ hbase
    exact ⟨hmain.1, hmain.2, fun h => absurd h hq'⟩

/-- Claim C6 witness: the theorem applied at a token whose
normalized+singularized form is empty, discharging the implication. -/
theorem c6_score_bounds_witness :
    singularize (normalize (chars ("  "))) = [] ∧
      (bestWindowSimilarity (chars ("stone")) (chars ("  "))).score = 0 :=
  ⟨by decide, (c6_score_bounds (chars ("stone")) (chars ("  "))).2.2 (by decide)⟩

/-- The span invariant maintained by the window loop: untouched sentinel
`-1`/`-1`, or a window start in `0 … max(0, len t − len q)` spanning exactly
`len q` positions. -/
def SpanInv (t q : List Char) (b : MatchSpan) : Prop :=
  (b.start = -1 ∧ b.endIdx = -1) ∨
    (0 ≤ b.start ∧ b.start ≤ ((max 0 (t.length - q.length) : Nat) : Int) ∧
      b.endIdx = b.start + (q.length : Int))

theorem windowStep_span (t q : List Char) (b : MatchSpan) (s : Nat)
    (hs : s ≤ max 0 (t.length - q.length)) (hb : SpanInv t q b) :
    SpanInv t q (windowStep t q b s) := by
  unfold windowStep SpanInv
  dsimp only
  split
  · right
    refine ⟨?_, ?_, ?_⟩
    · show (0 : Int) ≤ ((s : Nat) : Int)
      positivity
    · show ((s : Nat) : Int) ≤ ((max 0 (t.length - q.length) : Nat) : Int)
      exact_mod_cast hs
    · show ((s : Nat) : Int) + ((q.length : Nat) : Int) =
        ((s : Nat) : Int) + ((q.length : Nat) : Int)
      rfl
  · exact hb

theorem windowFold_span (t q : List Char) (init : MatchSpan) (hinit : SpanInv t q init) :
    SpanInv t q (windowFold t q init) :=
  foldl_invariant (SpanInv t q) _ _ _ hinit
    (fun b s hs hb => windowStep_span t q b s
      (by simpa [List.mem_range, Nat.lt_succ_iff] using hs) hb)

theorem window_bound_nat (tl ql : Nat) (hq : 0 < ql) :
    max 0 (tl - ql) + ql ≤ max tl ql := by omega

/-- Claim C3 (amended): for every candidate text and token with non-empty
normalized+singularized form `q`, the returned span either has the sentinel
`start = end = -1` (prefix or whole-string comparison), or is a window of
exactly `len q` characters starting at a valid window offset:
`0 ≤ start ≤ max(0, len t − len q)` and `end = start + len q`, whence
`end ≤ max(len t, len q)`.  (The original claim's bound `end ≤ len t` holds
whenever `len q ≤ len t` but fails when the token is longer than the
candidate, because the single window considered is then `t.slice(0, len q)`,
which is all of `t`, while `end` is still set to `0 + len q`.) -/
theorem c3_span_bounds (text token : List Char)
    (hq : singularize (normalize token) ≠ []) :
    ((bestWindowSimilarity text token).start = -1 ∧
        (bestWindowSimilarity text token).endIdx = -1) ∨
      (0 ≤ (bestWindowSimilarity text token).start ∧
        (bestWindowSimilarity text token).start ≤
          ((max 0 ((singularize (normalize text)).length -
            (singularize (normalize token)).length) : Nat) : Int) ∧
        (bestWindowSimilarity text token).endIdx =
          (bestWindowSimilarity text token).start +
            ((singularize (normalize token)).length : Int) ∧
        (bestWindowSimilarity text token).endIdx ≤
          ((max (singularize (normalize text)).length
            (singularize (normalize token)).length : Nat) : Int)) := by
  have hqe : (singularize (normalize token)).isEmpty = false := by
    simpa [List.isEmpty_iff] using hq
  have hql : 0 < (singularize (normalize token)).length := List.length_pos.mpr hq
  have hbound := window_bound_nat (singularize (normalize text)).length
    (singularize (normalize token)).length hql
  have hmain : SpanInv (singularize (normalize text)) (singularize (normalize token))
      (bestWindowSimilarity text token) := by
    unfold bestWindowSimilarity
    simp only [hqe, Bool.false_eq_true, if_false]
    cases hfi : firstIndexOf (singularize (normalize text)) (singularize (normalize token)) with
    | some idx =>
      simp only [hfi]
      obtain ⟨h1, _⟩ := firstIndexOf_some _ _ idx hfi
      have hlen := startsWithL_length _ _ idx hq h1
      unfold SpanInv
      dsimp only
      right
      refine ⟨?_, ?_, ?_⟩
      · show (0 : Int) ≤ ((idx : Nat) : Int)
        positivity
      · show ((idx : Nat) : Int) ≤ ((max 0 ((singularize (normalize text)).length -
          (singularize (normalize token)).length) : Nat) : Int)
        exact_mod_cast (show idx ≤ max 0 ((singularize (normalize text)).length -
          (singularize (normalize token)).length) by omega)
      · show ((idx + (singularize (normalize token)).length : Nat) : Int) =
          ((idx : Nat) : Int) + (((singularize (normalize token)).length : Nat) : Int)
        push_cast
        ring
    | none =>
      simp only [hfi]
      split
      · unfold SpanInv; left; exact ⟨rfl, rfl⟩
      · split
        · unfold SpanInv; left; exact ⟨rfl, rfl⟩
        · exact windowFold_span _ _ _ (by unfold SpanInv; left; exact ⟨rfl, rfl⟩)
  unfold SpanInv at hmain
  rcases hmain with h | ⟨h1, h2, h3⟩
  · exact Or.inl h
  · right
    refine ⟨h1, h2, h3, ?_⟩
    rw [h3]
    have : ((max 0 ((singularize (normalize text)).length -
        (singularize (normalize token)).length) : Nat) : Int) +
          ((singularize (normalize token)).length : Int) ≤
        ((max (singularize (normalize text)).length
          (singularize (normalize token)).length : Nat) : Int) := by
      exact_mod_cast hbound
    omega

/-- Claim C3 counterexample: for candidate `"ab"` and token `"xab"` the
normalized+singularized forms are `t = "ab"` (length 2) and `q = "xab"`
(length 3, non-empty); the best similarity comes from the single window
`t.slice(0, 3) = "ab"`, and the returned span is `start = 0`, `end = 3`,
violating the claimed bound `end ≤ len t = 2`. -/
theorem c3_counterexample :
    singularize (normalize (chars ("xab"))) ≠ [] ∧
      (singularize (normalize (chars ("ab")))).length = 2 ∧
      (singularize (normalize (chars ("xab")))).length = 3 ∧
      bestWindowSimilarity (chars ("ab")) (chars ("xab")) =
        { score := 2/3, start := 0, endIdx := 3, exact := false } ∧
      ¬(((bestWindowSimilarity (chars ("ab")) (chars ("xab"))).start = -1 ∧
          (bestWindowSimilarity (chars ("ab")) (chars ("xab"))).endIdx = -1) ∨
        (0 ≤ (bestWindowSimilarity (chars ("ab")) (chars ("xab"))).start ∧
          (bestWindowSimilarity (chars ("ab")) (chars ("xab"))).endIdx ≤
            ((singularize (normalize (chars ("ab")))).length : Int) ∧
          (bestWindowSimilarity (chars ("ab")) (chars ("xab"))).endIdx -
              (bestWindowSimilarity (chars ("ab")) (chars ("xab"))).start =
            ((singularize (normalize (chars ("xab")))).length : Int))) := by
  with_unfolding_all decide

/-- Claim C3 witness: the amended theorem applied to candidate `"Stone"` and
token `"stome"` (window span `[0, 5)` inside `"stone"`). -/
theorem c3_span_bounds_witness :
    singularize (normalize (chars ("stome"))) ≠ [] ∧
      (((bestWindowSimilarity (chars ("Stone")) (chars ("stome"))).start = -1 ∧
          (bestWindowSimilarity (chars ("Stone")) (chars ("stome"))).endIdx = -1) ∨
        (0 ≤ (bestWindowSimilarity (chars ("Stone")) (chars ("stome"))).start ∧
          (bestWindowSimilarity (chars ("Stone")) (chars ("stome"))).start ≤
            ((max 0 ((singularize (normalize (chars ("Stone")))).length -
              (singularize (normalize (chars ("stome")))).length) : Nat) : Int) ∧
          (bestWindowSimilarity (chars ("Stone")) (chars ("stome"))).endIdx =
            (bestWindowSimilarity (chars ("Stone")) (chars ("stome"))).start +
              ((singularize (normalize (chars ("stome")))).length : Int) ∧
          (bestWindowSimilarity (chars ("Stone")) (chars ("stome"))).endIdx ≤
            ((max (singularize (normalize (chars ("Stone")))).length
              (singularize (normalize (chars ("stome")))).length : Nat) : Int))) :=
  ⟨by decide, c3_span_bounds (chars ("Stone")) (chars ("stome")) (by decide)⟩

/-! ### KitResult invariants -/

theorem foldl_add_score :
    ∀ (l : List BestForBlock) (init : ℚ),
      l.foldl (fun acc b => acc + b.score) init = init + (l.map (fun b => b.score)).sum := by
  intro l
  induction l with
  | nil => intro init; simp
  | cons x xs ih =>
    intro init
    simp only [List.foldl_cons, List.map_cons, List.sum_cons, ih (init + x.score)]
    ring

theorem bestForBlock_originalBlock (tokens : List (List Char)) (block : List Char) :
    (bestForBlock tokens block).originalBlock = block := by
  unfold bestForBlock
  refine foldl_invariant (fun b : BestForBlock => b.originalBlock = block) _ _ _ rfl ?_
  intro b tokRaw _ hb
  dsimp only
  split
  · rfl
  · exact hb

theorem blockScoreLe_trans (a b c : BestForBlock)
    (h1 : blockScoreLe a b = true) (h2 : blockScoreLe b c = true) :
    blockScoreLe a c = true := by
  simp only [blockScoreLe, decide_eq_true_eq] at *
  exact le_trans h2 h1

theorem blockScoreLe_total (a b : BestForBlock) :
    (blockScoreLe a b || blockScoreLe b a) = true := by
  simp only [blockScoreLe, Bool.or_eq_true, decide_eq_true_eq]
  exact le_total b.score a.score

theorem kitResult?_inv (tokens : List (List Char)) (kit : Kit) (r : KitResult)
    (h : kitResult? tokens kit = some r) :
    r.kit = kit ∧
      r.matchedBlocks = (admittedBlocks tokens kit).mergeSort blockScoreLe ∧
      r.kitScore = (admittedBlocks tokens kit).foldl (fun acc b => acc + b.score) 0 ∧
      r.hitsCount = (admittedBlocks tokens kit).length ∧
      admittedBlocks tokens kit ≠ [] := by
  unfold kitResult? at h
  by_cases he : (admittedBlocks tokens kit).isEmpty
  · simp [he] at h
  · simp only [he, Bool.false_eq_true, if_false, Option.some.injEq] at h
    subst h
    exact ⟨rfl, rfl, rfl, rfl, by simpa [List.isEmpty_iff] using he⟩

/-- Claim C2: every `KitResult` in the output satisfies the data-model
invariants — non-empty `matchedBlocks`; `kitScore` is the sum of the matched
blocks' scores; `hitsCount` is their number; each occurrence of a block in
the kit contributes at most one entry (its single best-scoring admitted
token match, which is exactly `bestForBlock` of that block, with positive
score); and `matchedBlocks` is sorted by descending score. -/
theorem c2_kitresult_invariants (kits : List Kit) (tokens : List (List Char))
    (r : KitResult) (hr : r ∈ renderResults kits tokens) :
    r.matchedBlocks ≠ [] ∧
      r.kitScore = (r.matchedBlocks.map (fun mb => mb.score)).sum ∧
      r.hitsCount = r.matchedBlocks.length ∧
      (∀ blk, r.matchedBlocks.countP (fun mb => mb.originalBlock == blk) ≤
        r.kit.blocks.count blk) ∧
      (∀ mb ∈ r.matchedBlocks,
        mb = bestForBlock tokens mb.originalBlock ∧ 0 < mb.score ∧
          mb.originalBlock ∈ r.kit.blocks) ∧
      r.matchedBlocks.Pairwise (fun x y => y.score ≤ x.score) := by
  rw [renderResults, List.mem_mergeSort, List.mem_filterMap] at hr
  obtain ⟨kit, hkit, hsome⟩ := hr
  obtain ⟨hk, hmb, hks, hhc, hne⟩ := kitResult?_inv tokens kit r hsome
  have hperm : r.matchedBlocks.Perm (admittedBlocks tokens kit) := by
    rw [hmb]; exact List.mergeSort_perm _ _
  refine ⟨?_, ?_, ?_, ?_, ?_, ?_⟩
  · intro hnil
    rw [hnil] at hperm
    exact hne (List.Perm.nil_eq hperm).symm
  · rw [hks, foldl_add_score, zero_add]
    exact (List.Perm.sum_eq (List.Perm.map _ hperm)).symm
  · rw [hhc, hperm.length_eq]
  · intro blk
    rw [List.Perm.countP_eq _ hperm, hk]
    unfold admittedBlocks
    calc List.countP (fun mb => mb.originalBlock == blk)
          (((kit.blocks.map (bestForBlock tokens)).filter (fun b => decide (0 < b.score))))
        ≤ List.countP (fun mb => mb.originalBlock == blk) (kit.blocks.map (bestForBlock tokens)) :=
          (List.filter_sublist _).countP_le _
      _ = List.countP (fun b => (bestForBlock tokens b).originalBlock == blk) kit.blocks := by
          rw [List.countP_map]; rfl
      _ = List.countP (fun b => b == blk) kit.blocks := by
          refine List.countP_congr ?_
          intro b _
          rw [bestForBlock_originalBlock]
      _ = kit.blocks.count blk := rfl
  · intro mb hmb'
    have hmem : mb ∈ admittedBlocks tokens kit := (hperm.mem_iff).mp hmb'
    unfold admittedBlocks at hmem
    rw [List.mem_filter] at hmem
    obtain ⟨hmem1, hmem2⟩ := hmem
    rw [List.mem_map] at hmem1
    obtain ⟨b, hb, hbe⟩ := hmem1
    have hob : mb.originalBlock = b := by rw [← hbe, bestForBlock_originalBlock]
    refine ⟨by rw [hob, hbe], by simpa using hmem2, by rw [hob, hk]; exact hb⟩
  · rw [hmb]
    have hs := List.sorted_mergeSort blockScoreLe_trans blockScoreLe_total
      (admittedBlocks tokens kit)
    exact hs.imp (fun h => by simpa [blockScoreLe, decide_eq_true_eq] using h)

/-- Claim C2 witness: the theorem applied to a one-kit catalog and the token
list `["stone"]`; the unique result is the kit's `kitResult?`, and its
`matchedBlocks` is non-empty. -/
theorem c2_kitresult_invariants_witness :
    ((kitResult? [chars ("stone")] { name := chars ("Forest Kit"), blocks := [chars ("stone")] }).getD
        { kit := { name := [], blocks := [] }, matchedBlocks := [], kitScore := 0, hitsCount := 0 } ∈
      renderResults [{ name := chars ("Forest Kit"), blocks := [chars ("stone")] }]
        [chars ("stone")]) ∧
      ((kitResult? [chars ("stone")] { name := chars ("Forest Kit"), blocks := [chars ("stone")] }).getD
        { kit := { name := [], blocks := [] }, matchedBlocks := [], kitScore := 0, hitsCount := 0 }).matchedBlocks ≠ [] :=
  ⟨by with_unfolding_all decide,
    (c2_kitresult_invariants [{ name := chars ("Forest Kit"), blocks := [chars ("stone")] }]
      [chars ("stone")] _ (by with_unfolding_all decide)).1⟩

/-! ### Collation order -/

theorem char_toNat_inj {a b : Char} (h : a.toNat = b.toNat) : a = b := by
  have h2 := congrArg Char.ofNat h
  rwa [Char.ofNat_toNat, Char.ofNat_toNat] at h2

theorem lexCmp_vals : ∀ a b : List Char, lexCmp a b = -1 ∨ lexCmp a b = 0 ∨ lexCmp a b = 1 := by
  intro a
  induction a with
  | nil => intro b; cases b <;> simp [lexCmp]
  | cons x xs ih =>
    intro b
    cases b with
    | nil => simp [lexCmp]
    | cons y ys =>
      unfold lexCmp
      split
      · simp
      · split
        · simp
        · exact ih ys

theorem lexCmp_eq_zero_iff : ∀ a b : List Char, lexCmp a b = 0 ↔ a = b := by
  intro a
  induction a with
  | nil => intro b; cases b <;> simp [lexCmp]
  | cons x xs ih =>
    intro b
    cases b with
    | nil => simp [lexCmp]
    | cons y ys =>
      unfold lexCmp
      split
      · next h =>
        constructor
        · intro hc; exact absurd hc (by decide)
        · intro hc
          injection hc with h1 h2
          exfalso
          subst h1
          omega
      · split
        · next h1 h2 =>
          constructor
          · intro hc; exact absurd hc (by decide)
          · intro hc
            injection hc with ha hb
            exfalso
            subst ha
            omega
        · next h1 h2 =>
          have hchar : x = y := char_toNat_inj (by omega)
          subst hchar
          rw [ih ys]
          simp

theorem lexCmp_neg : ∀ a b : List Char, lexCmp b a = -lexCmp a b := by
  intro a
  induction a with
  | nil => intro b; cases b <;> simp [lexCmp]
  | cons x xs ih =>
    intro b
    cases b with
    | nil => simp [lexCmp]
    | cons y ys =>
      unfold lexCmp
      rcases Nat.lt_trichotomy x.toNat y.toNat with h | h | h
      · rw [if_neg (by omega : ¬ y.toNat < x.toNat), if_pos h, if_pos h]
        decide
      · rw [if_neg (by omega : ¬ y.toNat < x.toNat), if_neg (by omega : ¬ x.toNat < y.toNat),
          if_neg (by omega : ¬ x.toNat < y.toNat), if_neg (by omega : ¬ y.toNat < x.toNat)]
        exact ih ys
      · rw [if_pos h, if_neg (by omega : ¬ x.toNat < y.toNat), if_pos h]

theorem lexCmp_trans3 : ∀ a b c : List Char,
    (lexCmp a b ≤ 0 → lexCmp b c ≤ 0 → lexCmp a c ≤ 0) ∧
      (lexCmp a b < 0 → lexCmp b c ≤ 0 → lexCmp a c < 0) ∧
      (lexCmp a b ≤ 0 → lexCmp b c < 0 → lexCmp a c < 0) := by
  intro a
  induction a with
  | nil =>
    intro b c
    refine ⟨fun h1 h2 => ?_, fun h1 h2 => ?_, fun h1 h2 => ?_⟩
    · cases c <;> simp [lexCmp]
    · cases b with
      | nil => simp [lexCmp] at h1
      | cons y ys =>
        cases c with
        | nil => rw [show lexCmp (y :: ys) [] = 1 from by simp [lexCmp]] at h2; omega
        | cons z zs => simp [lexCmp]
    · cases c with
      | nil =>
        exfalso
        cases b with
        | nil => rw [show lexCmp ([] : List Char) [] = 0 from by simp [lexCmp]] at h2; omega
        | cons y ys => rw [show lexCmp (y :: ys) [] = 1 from by simp [lexCmp]] at h2; omega
      | cons z zs => simp [lexCmp]
  | cons x xs ih =>
    intro b c
    cases b with
    | nil =>
      refine ⟨fun h1 h2 => ?_, fun h1 h2 => ?_, fun h1 h2 => ?_⟩ <;>
        rw [show lexCmp (x :: xs) [] = 1 from by simp [lexCmp]] at h1 <;> omega
    | cons y ys =>
      cases c with
      | nil =>
        refine ⟨fun h1 h2 => ?_, fun h1 h2 => ?_, fun h1 h2 => ?_⟩ <;>
          rw [show lexCmp (y :: ys) [] = 1 from by simp [lexCmp]] at h2 <;> omega
      | cons z zs =>
        obtain ⟨t1, t2, t3⟩ := ih ys zs
        refine ⟨fun h1 h2 => ?_, fun h1 h2 => ?_, fun h1 h2 => ?_⟩ <;>
        · unfold lexCmp at h1 h2 ⊢
          split at h1 <;> try split at h1
          all_goals (split at h2 <;> try split at h2)
          all_goals (split <;> try split)
          all_goals
            first
            | omega
            | (exfalso; omega)
            | exact t1 h1 h2
            | exact t2 h1 h2
            | exact t3 h1 h2

theorem localeCompare_neg (a b : List Char) : localeCompare b a = -localeCompare a b := by
  unfold localeCompare
  simp only [ne_eq, ite_not]
  rw [lexCmp_neg a b, lexCmp_neg (a.map Char.toLower) (b.map Char.toLower)]
  by_cases hp : lexCmp (a.map Char.toLower) (b.map Char.toLower) = 0
  · simp [hp]
  · rw [if_neg (by simpa using hp), if_neg hp]

theorem localeCompare_le_trans (a b c : List Char)
    (h1 : localeCompare a b ≤ 0) (h2 : localeCompare b c ≤ 0) :
    localeCompare a c ≤ 0 := by
  unfold localeCompare at h1 h2 ⊢
  simp only [ne_eq, ite_not] at h1 h2 ⊢
  by_cases hab : lexCmp (a.map Char.toLower) (b.map Char.toLower) = 0
  · have hlab : a.map Char.toLower = b.map Char.toLower := (lexCmp_eq_zero_iff _ _).mp hab
    rw [if_pos hab] at h1
    by_cases hbc : lexCmp (b.map Char.toLower) (c.map Char.toLower) = 0
    · have hlbc : b.map Char.toLower = c.map Char.toLower := (lexCmp_eq_zero_iff _ _).mp hbc
      have hac : lexCmp (a.map Char.toLower) (c.map Char.toLower) = 0 :=
        (lexCmp_eq_zero_iff _ _).mpr (hlab.trans hlbc)
      rw [if_pos hbc] at h2
      rw [if_pos hac]
      exact (lexCmp_trans3 a b c).1 h1 h2
    · rw [if_neg hbc] at h2
      have hac : lexCmp (a.map Char.toLower) (c.map Char.toLower) =
          lexCmp (b.map Char.toLower) (c.map Char.toLower) := by rw [hlab]
      rw [if_neg (by rw [hac]; exact hbc), hac]
      exact h2
  · rw [if_neg hab] at h1
    by_cases hbc : lexCmp (b.map Char.toLower) (c.map Char.toLower) = 0
    · have hlbc : b.map Char.toLower = c.map Char.toLower := (lexCmp_eq_zero_iff _ _).mp hbc
      have hac : lexCmp (a.map Char.toLower) (c.map Char.toLower) =
          lexCmp (a.map Char.toLower) (b.map Char.toLower) := by rw [hlbc]
      rw [if_neg (by rw [hac]; exact hab), hac]
      exact h1
    · rw [if_neg hbc] at h2
      have hab' : lexCmp (a.map Char.toLower) (b.map Char.toLower) < 0 := by omega
      have hbc' : lexCmp (b.map Char.toLower) (c.map Char.toLower) < 0 := by omega
      have hac : lexCmp (a.map Char.toLower) (c.map Char.toLower) < 0 :=
        (lexCmp_trans3 _ _ _).2.1 hab' (le_of_lt hbc')
      rw [if_neg (by omega)]
      omega

theorem localeCompare_total (a b : List Char) :
    localeCompare a b ≤ 0 ∨ localeCompare b a ≤ 0 := by
  have h := localeCompare_neg a b
  rcases le_or_lt (localeCompare a b) 0 with h1 | h1
  · exact Or.inl h1
  · right; omega

/-- The modelled `localeCompare` refines the case-insensitive (primary-level)
comparison: if `a` collates before-or-equal `b`, then the lowercased strings
are lexicographically before-or-equal. -/
theorem localeCompare_le_ci (a b : List Char) (h : localeCompare a b ≤ 0) :
    lexCmp (a.map Char.toLower) (b.map Char.toLower) ≤ 0 := by
  unfold localeCompare at h
  simp only [ne_eq, ite_not] at h
  by_cases hab : lexCmp (a.map Char.toLower) (b.map Char.toLower) = 0
  · omega
  · rw [if_neg hab] at h
    exact h

theorem rankLe_trans (a b c : KitResult) (h1 : rankLe a b = true) (h2 : rankLe b c = true) :
    rankLe a c = true := by
  simp only [rankLe, decide_eq_true_eq] at h1 h2 ⊢
  rcases h1 with h1 | ⟨h1e, h1r⟩
  · rcases h2 with h2 | ⟨h2e, h2r⟩
    · exact Or.inl (lt_trans h2 h1)
    · exact Or.inl (by rw [h2e]; exact h1)
  · rcases h2 with h2 | ⟨h2e, h2r⟩
    · exact Or.inl (by rw [← h1e]; exact h2)
    · right
      refine ⟨h2e.trans h1e, ?_⟩
      rcases h1r with h1h | ⟨h1he, h1n⟩
      · rcases h2r with h2h | ⟨h2he, h2n⟩
        · exact Or.inl (lt_trans h2h h1h)
        · exact Or.inl (by rw [h2he]; exact h1h)
      · rcases h2r with h2h | ⟨h2he, h2n⟩
        · exact Or.inl (by rw [← h1he]; exact h2h)
        · exact Or.inr ⟨h2he.trans h1he, localeCompare_le_trans _ _ _ h1n h2n⟩

theorem rankLe_total (a b : KitResult) : (rankLe a b || rankLe b a) = true := by
  simp only [rankLe, Bool.or_eq_true, decide_eq_true_eq]
  rcases lt_trichotomy a.kitScore b.kitScore with h | h | h
  · right; left; exact h
  · rcases lt_trichotomy a.hitsCount b.hitsCount with hh | hh | hh
    · right; right; exact ⟨h, Or.inl hh⟩
    · rcases localeCompare_total a.kit.name b.kit.name with hn | hn
      · left; right; exact ⟨h.symm, Or.inr ⟨hh.symm, hn⟩⟩
      · right; right; exact ⟨h, Or.inr ⟨hh, hn⟩⟩
    · left; right; exact ⟨h.symm, Or.inl hh⟩
  · left; left; exact h

/-- Claim C1: the final result list is sorted by `kitScore` descending, then
`hitsCount` descending, then kit name ascending under the locale-aware,
case-insensitive comparison; in particular any two results with equal
`kitScore` and equal `hitsCount` appear in case-insensitive ascending order
of their kit names (`lexCmp` of the lowercased names is `≤ 0`). -/
theorem c1_ranking_sorted (kits : List Kit) (tokens : List (List Char))
    (hne : tokens ≠ []) :
    (renderResults kits tokens).Pairwise (fun r1 r2 =>
      r2.kitScore < r1.kitScore ∨
        (r2.kitScore = r1.kitScore ∧
          (r2.hitsCount < r1.hitsCount ∨
            (r2.hitsCount = r1.hitsCount ∧
              lexCmp (r1.kit.name.map Char.toLower) (r2.kit.name.map Char.toLower) ≤ 0)))) := by
  unfold renderResults
  have hs := List.sorted_mergeSort rankLe_trans rankLe_total (kits.filterMap (kitResult? tokens))
  refine hs.imp ?_
  intro r1 r2 h
  simp only [rankLe, decide_eq_true_eq] at h
  rcases h with h | ⟨he, hr⟩
  · exact Or.inl h
  · right
    refine ⟨he, ?_⟩
    rcases hr with hh | ⟨hhe, hn⟩
    · exact Or.inl hh
    · exact Or.inr ⟨hhe, localeCompare_le_ci _ _ hn⟩

/-- Claim C1 witness: a two-kit catalog where both kits tie exactly (both
score 1 with one hit), so the case-insensitive name comparison decides the
order. -/
theorem c1_ranking_sorted_witness :
    ([chars ("stone")] : List (List Char)) ≠ [] ∧
      (renderResults
          [{ name := chars ("b kit"), blocks := [chars ("stone")] },
           { name := chars ("A kit"), blocks := [chars ("stone")] }]
          [chars ("stone")]).Pairwise (fun r1 r2 =>
        r2.kitScore < r1.kitScore ∨
          (r2.kitScore = r1.kitScore ∧
            (r2.hitsCount < r1.hitsCount ∨
              (r2.hitsCount = r1.hitsCount ∧
                lexCmp (r1.kit.name.map Char.toLower) (r2.kit.name.map Char.toLower) ≤ 0)))) :=
  ⟨by decide, c1_ranking_sorted
    [{ name := chars ("b kit"), blocks := [chars ("stone")] },
     { name := chars ("A kit"), blocks := [chars ("stone")] }]
    [chars ("stone")] (by decide)⟩

end App
